import Mathlib

/-!
# Verification of the pdf2json batch-processing state machine

A shallow embedding of the resumable batch-processing core of the
`pdf2json-gemini` repository (`src/pdf_processor.py`, `src/merge_json_outputs.py`)
together with proofs about identifier assignment, the completion-ledger scan,
the smart and simple resume loops, bounded-parallel execution and the merge tool.

Strings are modelled as `List Char`.  Python operations used by the source
(`str.split('-')`, `int(...)`, f-string zero padding `{n:03d}`, `Path.stem`,
`*.json` globbing) are embedded as executable Lean functions.  Filesystem
state is modelled as an association list from file names to file contents.
Per-item execution against the external service is an oracle
`Nat → ExecOutcome`.  Python's `ZeroDivisionError` is modelled with `Except`.
-/

namespace PdfTool

/-- Characters stripped by Python's `int(str)` before parsing. -/
def isPySpace (c : Char) : Bool :=
  c = ' ' || c = '\t' || c = '\n' || c = '\r'

/-- Digit-run parser mirroring Python `int()` digit grammar: after the first
digit, single underscores are allowed between digits (`int("1_0") = 10`),
but not trailing or doubled.  `afterUnderscore` records that the previous
character was an underscore. -/
def pyDigitsAux : Bool → Nat → List Char → Option Nat
  | afterUnderscore, acc, [] => if afterUnderscore then none else some acc
  | afterUnderscore, acc, c :: cs =>
    if c.isDigit then pyDigitsAux false (acc * 10 + (c.toNat - 48)) cs
    else if c = '_' then
      if afterUnderscore then none else pyDigitsAux true acc cs
    else none

/-- Parse a nonempty digit run (first character must be a digit). -/
def pyDigits : List Char → Option Nat
  | [] => none
  | c :: cs => if c.isDigit then pyDigitsAux false (c.toNat - 48) cs else none

/-- Model of Python `int(s)` on a string: strip surrounding whitespace,
optional single sign, then digits (with `pyDigits` underscore rules). -/
def pyInt (s : List Char) : Option Int :=
  let t := ((s.dropWhile isPySpace).reverse.dropWhile isPySpace).reverse
  match t with
  | '+' :: rest => (pyDigits rest).map Int.ofNat
  | '-' :: rest => (pyDigits rest).map (fun n => -(Int.ofNat n))
  | rest => (pyDigits rest).map Int.ofNat

/-- Model of Python `str.split(sep)` for a single-character separator:
splits on every occurrence, keeping empty pieces (`"a--b" → ["a","","b"]`,
`"" → [""]`). -/
def splitOnChar (sep : Char) : List Char → List (List Char)
  | [] => [[]]
  | c :: rest =>
    let r := splitOnChar sep rest
    if c = sep then [] :: r
    else
      match r with
      | [] => [[c]]
      | h :: t => (c :: h) :: t

/-- Little-endian decimal digits of `n`, computed with explicit fuel so the
definition is structural (and hence evaluates by `decide`/`rfl`). -/
def natDigitsAux : Nat → Nat → List Nat
  | 0, _ => []
  | _ + 1, 0 => []
  | fuel + 1, n + 1 => (n + 1) % 10 :: natDigitsAux fuel ((n + 1) / 10)

/-- Little-endian decimal digits of `n` (`0 → []`). -/
def natDigits10 (n : Nat) : List Nat := natDigitsAux n n

/-- Value of a little-endian digit list. -/
def ofDigitsLE : List Nat → Nat
  | [] => 0
  | d :: ds => d + 10 * ofDigitsLE ds

/-- The digit list of the Python format `{n:03d}` for `n ≥ 0`, as numeric
digits: big-endian digits of `n`, left-padded with zeros to width 3. -/
def pad3N (n : Nat) : List Nat :=
  let ds := (natDigits10 n).reverse
  List.replicate (3 - ds.length) 0 ++ ds

/-- The character string of the Python format `{n:03d}` for `n ≥ 0`. -/
def pad3 (n : Nat) : List Char := (pad3N n).map Nat.digitChar

/-- The Identifier Assigner: the source constructs every paper identifier as
`f"{section_code}-{sequence_id:03d}"` (src/pdf_processor.py lines 252, 314,
465, 562, 642). -/
def assign (sectionCode : List Char) (position : Nat) : List Char :=
  sectionCode ++ '-' :: pad3 position

/-- Evaluating a big-endian digit list by a left fold. -/
def valBE (ds : List Nat) : Nat := ds.foldl (fun a d => a * 10 + d) 0

/-! ## Filesystem model and the Completion Ledger scan -/

/-- A file name, as a character list. -/
abbrev FName := List Char

/-- A `*.json` glob hit: the name ends in `.json` and (glob hides dotfiles)
does not start with `.`. -/
def jsonGlobMatch (name : FName) : Bool :=
  ('.' :: 'j' :: 's' :: 'o' :: 'n' :: []).isSuffixOf name && !(name.head? = some '.')

/-- Model of `Path(name).stem` for a name matched by `*.json`: strip the
final `.json` suffix (5 characters). -/
def stemOf (name : FName) : FName := name.take (name.length - 5)

/-- Extraction of a sequence number from an artifact stem, as performed by
`get_already_processed_files` (src/pdf_processor.py lines 390-395):
`parts = stem.split('-')`; only when there are exactly two parts is
`int(parts[1])` attempted; a `ValueError` is caught and the file skipped. -/
def seqFromStem (stem : FName) : Option Int :=
  match splitOnChar '-' stem with
  | [_, numPart] => pyInt numPart
  | _ => none

/-- The Completion Ledger scan in sequence-based (smart) mode,
`get_already_processed_files` (src/pdf_processor.py lines 381-398): glob the
output directory for `*.json`, parse each stem, collect recovered sequence
numbers (set semantics: only membership is ever used). -/
def getAlreadyProcessedFiles (outputFiles : List FName) : List Int :=
  (outputFiles.filter jsonGlobMatch).filterMap (fun n => seqFromStem (stemOf n))

/-- The Completion Ledger scan in identifier-based (simple) mode
(src/pdf_processor.py lines 528-533): the set of stems of all `*.json`
artifacts in the output directory. -/
def processedStems (outputFiles : List FName) : List FName :=
  (outputFiles.filter jsonGlobMatch).map stemOf

/-- Artifact file name written by `save_json_output` for a paper id
(src/pdf_processor.py line 215): `{paper_id}.json`. -/
def artifactName (sec : FName) (p : Nat) : FName :=
  assign sec p ++ ('.' :: 'j' :: 's' :: 'o' :: 'n' :: [])

/-! ## Execution model -/

/-- A JSON value, kept abstract beyond what the merge tool needs (artifact
payloads are opaque objects and the merged archive is a JSON array of them). -/
inductive JVal where
  | atom (n : Nat)
  | arr (elems : List JVal)

/-- Output-directory state: file names with their JSON contents. -/
abbrev Fs := List (FName × JVal)

/-- Read a file (first match). -/
def fsGet {α : Type} : List (FName × α) → FName → Option α
  | [], _ => none
  | (n, v) :: rest, name => if n = name then some v else fsGet rest name

/-- Write a file with `open(path, 'w')` semantics: replace the content if the
name exists, else create it. -/
def fsWrite {α : Type} : List (FName × α) → FName → α → List (FName × α)
  | [], name, v => [(name, v)]
  | (n, w) :: rest, name, v =>
    if n = name then (n, v) :: rest else (n, w) :: fsWrite rest name v

/-- Outcome of `process_single_pdf` for one item, as the orchestration loops
observe it (src/pdf_processor.py lines 227-264): `ok payload` means the whole
upload/extract/save pipeline succeeded and the artifact was saved with
`payload`; `failed` means it returned `False`; `raised msg` means it raised
an exception (caught by every orchestration loop). -/
inductive ExecOutcome where
  | ok (payload : JVal)
  | failed
  | raised (msg : List Char)

/-- The per-item result record appended to `results["files"]`
(timestamps omitted: wall-clock values, referenced by no claim). -/
structure FileRecord where
  filename : FName
  sequenceId : Nat
  paperId : FName
  success : Bool
  error : Option (List Char)
deriving DecidableEq

/-- The error string recorded when `process_single_pdf` returns `False`. -/
def processingFailedMsg : List Char := "Processing failed".data

/-- Build the per-item record and filesystem effect of executing one item,
shared by the orchestration loops (src/pdf_processor.py lines 472-491). -/
def runItem (sec : FName) (exec : Nat → ExecOutcome) (idx : Nat) (name : FName) :
    FileRecord × Option JVal :=
  match exec idx with
  | .ok v => (⟨name, idx, assign sec idx, true, none⟩, some v)
  | .failed => (⟨name, idx, assign sec idx, false, some processingFailedMsg⟩, none)
  | .raised m => (⟨name, idx, assign sec idx, false, some m⟩, none)

/-- Mutable state of an orchestration loop: the counters and record list of
the `results` dict, plus the output-directory state. -/
structure RunAcc where
  processed : Nat
  failed : Nat
  skipped : Nat
  files : List FileRecord
  fs : Fs

/-- One iteration of the smart-resume loop (src/pdf_processor.py lines
449-491): skip positions below `start_from`, skip positions present in the
ledger, otherwise execute and record. -/
def smartStep (sec : FName) (startFrom : Nat) (exec : Nat → ExecOutcome)
    (ledger : List Int) (acc : RunAcc) (item : Nat × FName) : RunAcc :=
  if item.1 < startFrom then { acc with skipped := acc.skipped + 1 }
  else if (item.1 : Int) ∈ ledger then { acc with skipped := acc.skipped + 1 }
  else
    let (rec, write) := runItem sec exec item.1 item.2
    { acc with
      processed := acc.processed + (if rec.success then 1 else 0)
      failed := acc.failed + (if rec.success then 0 else 1)
      files := acc.files ++ [rec]
      fs := match write with
            | some v => fsWrite acc.fs (artifactName sec item.1) v
            | none => acc.fs }

/-- Python errors the model tracks. -/
inductive PyError where
  | zeroDivisionError
deriving DecidableEq

/-- The `results` dict of an orchestration run.  `skipped` and
`parallelWorkers` are `Option` because the corresponding dict keys are only
present in some modes: the resume loops create a `"skipped"` key
(src/pdf_processor.py lines 444, 556) while `process_pdfs_parallel` does not
(lines 701-708), which instead creates `"parallel_workers"`. -/
structure RunResults where
  success : Bool
  totalFiles : Nat
  processed : Nat
  failed : Nat
  skipped : Option Nat
  files : List FileRecord
  parallelWorkers : Option Nat
deriving DecidableEq

/-- `process_pdfs_with_resume` (src/pdf_processor.py lines 400-514), smart
resume: scan the ledger fresh (sequence-based), loop over the sorted snapshot
at positions `1..N`, skip/execute per `smartStep`, then log the final summary
whose success rate divides by `total_files - skipped` with no guard
(line 510) — modelled as `Except`, erroring exactly when that denominator is
zero.  The empty-directory early return (line 423-425) comes first.
`pdfFiles` is the sorted snapshot of `*.pdf` names. -/
def smartLedger (fs : Fs) : List Int :=
  getAlreadyProcessedFiles (fs.map Prod.fst)

/-- The state after the smart-resume loop over the whole snapshot
(src/pdf_processor.py lines 449-501): positions `1..N` via
`enumerate(pdf_files, 1)`. -/
def smartLoopAcc (fs : Fs) (pdfFiles : List FName) (sec : FName)
    (startFrom : Nat) (exec : Nat → ExecOutcome) : RunAcc :=
  (pdfFiles.enumFrom 1).foldl (smartStep sec startFrom exec (smartLedger fs))
    ⟨0, 0, 0, [], fs⟩

def processPdfsWithResume (fs : Fs) (pdfFiles : List FName) (sec : FName)
    (startFrom : Nat) (exec : Nat → ExecOutcome) :
    Except PyError (RunResults × Fs) :=
  if pdfFiles.isEmpty then
    .ok ({ success := true, totalFiles := 0, processed := 0, failed := 0,
           skipped := none, files := [], parallelWorkers := none }, fs)
  else
    let acc := smartLoopAcc fs pdfFiles sec startFrom exec
    if pdfFiles.length - acc.skipped = 0 then .error .zeroDivisionError
    else
      .ok ({ success := true, totalFiles := pdfFiles.length,
             processed := acc.processed, failed := acc.failed,
             skipped := some acc.skipped, files := acc.files,
             parallelWorkers := none }, acc.fs)

/-- One iteration of the simple-resume loop (src/pdf_processor.py lines
561-607): the skip checks are, in source order, identifier already present
among artifact stems, then position below `start_from` (the latter is
unreachable because enumeration starts at `start_from`). -/
def simpleStep (sec : FName) (startFrom : Nat) (exec : Nat → ExecOutcome)
    (stems : List FName) (acc : RunAcc) (item : Nat × FName) : RunAcc :=
  if assign sec item.1 ∈ stems then { acc with skipped := acc.skipped + 1 }
  else if item.1 < startFrom then { acc with skipped := acc.skipped + 1 }
  else
    let (rec, write) := runItem sec exec item.1 item.2
    { acc with
      processed := acc.processed + (if rec.success then 1 else 0)
      failed := acc.failed + (if rec.success then 0 else 1)
      files := acc.files ++ [rec]
      fs := match write with
            | some v => fsWrite acc.fs (artifactName sec item.1) v
            | none => acc.fs }

/-- The state after the simple-resume loop over the whole snapshot
(src/pdf_processor.py lines 561-617): the i-th document gets position
`start_from + i` via `enumerate(pdf_files, start_from)`. -/
def simpleLoopAcc (fs : Fs) (pdfFiles : List FName) (sec : FName)
    (startFrom : Nat) (exec : Nat → ExecOutcome) : RunAcc :=
  (pdfFiles.enumFrom startFrom).foldl
    (simpleStep sec startFrom exec (processedStems (fs.map Prod.fst)))
    ⟨0, 0, 0, [], fs⟩

/-- `process_pdfs_in_directory_with_resume` (src/pdf_processor.py lines
516-633), simple resume: scan artifact stems, enumerate the sorted snapshot
starting at `start_from` (line 561: `enumerate(pdf_files, start_from)`, so
the i-th document gets position `start_from + i`), skip/execute per
`simpleStep`; the final success rate is guarded against a zero denominator
(lines 620-621), so the run always returns. -/
def processPdfsInDirectoryWithResume (fs : Fs) (pdfFiles : List FName)
    (sec : FName) (startFrom : Nat) (exec : Nat → ExecOutcome) :
    RunResults × Fs :=
  if pdfFiles.isEmpty then
    ({ success := true, totalFiles := 0, processed := 0, failed := 0,
       skipped := none, files := [], parallelWorkers := none }, fs)
  else
    let acc := simpleLoopAcc fs pdfFiles sec startFrom exec
    ({ success := true, totalFiles := pdfFiles.length,
       processed := acc.processed, failed := acc.failed,
       skipped := some acc.skipped, files := acc.files,
       parallelWorkers := none }, acc.fs)

/-- `process_single_pdf_with_logging` (src/pdf_processor.py lines 635-666):
thread-safe wrapper producing a per-item record; an exception raised by the
underlying `process_single_pdf` is caught here and converted into an error
record, so the wrapper itself never raises. -/
def processSinglePdfWithLogging (sec : FName) (exec : Nat → ExecOutcome)
    (idx : Nat) (name : FName) : FileRecord :=
  (runItem sec exec idx name).1

/-- One collected completion of the parallel run (src/pdf_processor.py lines
726-745): the record is appended and tallied unconditionally — no ledger
check, no skip path. -/
def parallelStep (sec : FName) (exec : Nat → ExecOutcome)
    (acc : RunAcc) (item : Nat × FName) : RunAcc :=
  let (rec, write) := runItem sec exec item.1 item.2
  { acc with
    processed := acc.processed + (if rec.success then 1 else 0)
    failed := acc.failed + (if rec.success then 0 else 1)
    files := acc.files ++ [rec]
    fs := match write with
          | some v => fsWrite acc.fs (artifactName sec item.1) v
          | none => acc.fs }

/-- The keys of the `results` dict built by `process_pdfs_parallel`
(src/pdf_processor.py lines 701-708), in source order. -/
def parallelResultKeys : List String :=
  ["success", "total_files", "processed", "failed", "files", "parallel_workers"]

/-- The keys of the `results` dict built by the resume loops
(src/pdf_processor.py lines 439-446 and 551-558), in source order. -/
def resumeResultKeys : List String :=
  ["success", "total_files", "processed", "failed", "skipped", "files"]

/-- `process_pdfs_parallel` (src/pdf_processor.py lines 668-763): submit one
task per document of the sorted snapshot at positions `1..N` (lines 715-722,
with no ledger consultation), then collect records in completion order
(lines 726-745).  `completionOrder` is the order in which the pool's futures
complete: some permutation of the submitted `(position, document)` pairs. -/
def processPdfsParallel (fs : Fs) (pdfFiles : List FName) (sec : FName)
    (maxWorkers : Nat) (exec : Nat → ExecOutcome)
    (completionOrder : List (Nat × FName)) : RunResults × Fs :=
  if pdfFiles.isEmpty then
    ({ success := true, totalFiles := 0, processed := 0, failed := 0,
       skipped := none, files := [], parallelWorkers := none }, fs)
  else
    let acc := completionOrder.foldl (parallelStep sec exec) ⟨0, 0, 0, [], fs⟩
    ({ success := true, totalFiles := pdfFiles.length,
       processed := acc.processed, failed := acc.failed,
       skipped := none, files := acc.files,
       parallelWorkers := some maxWorkers }, acc.fs)

/-- Generic form of the three orchestration loop bodies: execute when `run`
holds of the item, otherwise count a skip.  `smartStep`, `simpleStep` and
`parallelStep` are all instances (proved below); this is proof
infrastructure, not part of the embedding. -/
def genStep (sec : FName) (exec : Nat → ExecOutcome) (run : Nat × FName → Bool)
    (acc : RunAcc) (item : Nat × FName) : RunAcc :=
  if run item then
    let (rec, write) := runItem sec exec item.1 item.2
    { acc with
      processed := acc.processed + (if rec.success then 1 else 0)
      failed := acc.failed + (if rec.success then 0 else 1)
      files := acc.files ++ [rec]
      fs := match write with
            | some v => fsWrite acc.fs (artifactName sec item.1) v
            | none => acc.fs }
  else { acc with skipped := acc.skipped + 1 }

/-- The record produced for item `(idx, name)` when it is executed. -/
def itemRecord (sec : FName) (exec : Nat → ExecOutcome) (it : Nat × FName) :
    FileRecord :=
  (runItem sec exec it.1 it.2).1

/-- The submissions made by `process_pdfs_parallel` (lines 715-722): every
document of the sorted snapshot, paired with its 1-based position. -/
def parallelSubmissions (pdfFiles : List FName) : List (Nat × FName) :=
  pdfFiles.enumFrom 1

/-! ## Merge tool (src/merge_json_outputs.py) -/

/-- A category directory as the merge tool sees it: file names with their
content, where `none` stands for a file whose text is not valid JSON
(`json.load` raises `JSONDecodeError` on it). -/
abbrev MDir := List (FName × Option JVal)

/-- The suffix `_merged.json` excluded by `collect_json_files`. -/
def mergedSuffix : FName := "_merged.json".data

/-- Case-insensitive lexicographic comparison of names, modelling Python's
`sorted(..., key=lambda p: p.name.lower())`. -/
def lowerLe (a b : FName) : Bool :=
  go (a.map Char.toLower) (b.map Char.toLower)
where
  go : List Char → List Char → Bool
    | [], _ => true
    | _ :: _, [] => false
    | x :: xs, y :: ys => if x = y then go xs ys else decide (x < y)

/-- The sort order of `collect_json_files`: by lowercased file name. -/
def nameOrder (a b : FName × Option JVal) : Prop := lowerLe a.1 b.1 = true

instance nameOrder.decRel : DecidableRel nameOrder :=
  fun a b => inferInstanceAs (Decidable (lowerLe a.1 b.1 = true))

/-- `collect_json_files` (src/merge_json_outputs.py lines 20-27): `*.json`
files whose name does not end in `_merged.json`, sorted by lowercased name
(a stable sort, like Python's `sorted`). -/
def collectJsonFiles (dir : MDir) : MDir :=
  List.insertionSort nameOrder
    (dir.filter (fun e => jsonGlobMatch e.1 && !(mergedSuffix.isSuffixOf e.1)))

/-- A merge failure: the `ValueError` raised by `merge_category` names the
offending file (src/merge_json_outputs.py line 43). -/
structure MergeErr where
  offending : FName
deriving DecidableEq

/-- The parse loop of `merge_category` (lines 36-43): parse each collected
file in order, aborting with the first file that fails to parse. -/
def collectData : MDir → Except MergeErr (List JVal)
  | [] => .ok []
  | (_, some v) :: rest => (collectData rest).map (fun l => v :: l)
  | (n, none) :: _ => .error ⟨n⟩

/-- `merge_category` (src/merge_json_outputs.py lines 30-49): collect the
inputs, return `none` when there are no files, otherwise parse all of them
(aborting on the first unparsable file) and write the combined list to
`<category>/<category>_merged.json`, returning the written path and the
updated directory. -/
def mergeCategory (dirName : FName) (dir : MDir) :
    Except MergeErr (Option (FName × MDir)) :=
  let jsonFiles := collectJsonFiles dir
  if jsonFiles.isEmpty then .ok none
  else
    match collectData jsonFiles with
    | .error e => .error e
    | .ok datas =>
      let outName := dirName ++ mergedSuffix
      .ok (some (outName, fsWrite dir outName (some (JVal.arr datas))))

/-- Per-category outcome as printed by `merge_outputs`. -/
inductive CatOutcome where
  | merged
  | noFiles
  | failedParse (offending : FName)
deriving DecidableEq

/-- The category loop of `merge_outputs` (src/merge_json_outputs.py lines
63-82): on a `ValueError` from `merge_category` it prints the error and
`return 1` immediately — the remaining categories are not attempted.  The
returned list records the categories attempted, in order, with their
outcomes; the `Nat` is the exit code. -/
def mergeOutputsLoop (mergedAny : Bool) :
    List (FName × MDir) → Nat × List (FName × CatOutcome)
  | [] => (if mergedAny then 0 else 1, [])
  | (n, d) :: rest =>
    match mergeCategory n d with
    | .error e => (1, [(n, .failedParse e.offending)])
    | .ok none =>
      let r := mergeOutputsLoop mergedAny rest
      (r.1, (n, .noFiles) :: r.2)
    | .ok (some _) =>
      let r := mergeOutputsLoop true rest
      (r.1, (n, .merged) :: r.2)

/-- `merge_outputs` (src/merge_json_outputs.py lines 52-82) over a root whose
category subdirectories are given with their contents. -/
def mergeOutputs (root : List (FName × MDir)) : Nat × List (FName × CatOutcome) :=
  if root.isEmpty then (1, []) else mergeOutputsLoop false root

/-! ## Concrete scenarios referenced by the theorems -/

/-- Two-document sorted snapshot `a.pdf`, `b.pdf`. -/
def twoDocs : List FName := "a.pdf".data :: "b.pdf".data :: []

/-- Three-document sorted snapshot. -/
def threeDocs : List FName := "x.pdf".data :: "y.pdf".data :: "z.pdf".data :: []

/-- Demo category (section code). -/
def demoSec : FName := "A".data

/-- Oracle under which every item succeeds. -/
def execAtom : Nat → ExecOutcome := fun n => .ok (.atom n)

/-- Output directory already holding artifacts for positions 1 and 2. -/
def fsBothPre : Fs :=
  (artifactName demoSec 1, .atom 0) :: (artifactName demoSec 2, .atom 0) :: []

/-- Output directory produced by a fully successful smart-resume run over
`twoDocs` starting from an empty directory. -/
def demoFs1 : Fs :=
  (artifactName demoSec 1, .atom 1) :: (artifactName demoSec 2, .atom 2) :: []

/-- The `results` value of that fully successful first run. -/
def demoR1 : RunResults :=
  { success := true, totalFiles := 2, processed := 2, failed := 0,
    skipped := some 0,
    files := ⟨"a.pdf".data, 1, assign demoSec 1, true, none⟩
        :: ⟨"b.pdf".data, 2, assign demoSec 2, true, none⟩ :: [],
    parallelWorkers := none }

/-- Output directory holding artifacts for positions 1, 2 and 4. -/
def fs124 : Fs :=
  (artifactName demoSec 1, .atom 0) :: (artifactName demoSec 2, .atom 0)
    :: (artifactName demoSec 4, .atom 0) :: []

/-- Merge scenario: a category directory with two artifacts. -/
def demoDirA : MDir :=
  ("A-001.json".data, some (.atom 1)) :: ("A-002.json".data, some (.atom 2)) :: []

/-- The merged archive name `A_merged.json` for category `A`. -/
def demoMergedName : FName := "A_merged.json".data

/-- The directory after the first merge. -/
def demoDirA1 : MDir :=
  demoDirA ++ [(demoMergedName, some (.arr (JVal.atom 1 :: JVal.atom 2 :: [])))]

/-- The directory after the second merge (merged archive overwritten with all
three artifacts, in name-sorted order). -/
def demoDirA2 : MDir :=
  ("A-001.json".data, some (.atom 1)) :: ("A-002.json".data, some (.atom 2))
    :: (demoMergedName, some (.arr (JVal.atom 1 :: JVal.atom 2 :: JVal.atom 3 :: [])))
    :: ("A-003.json".data, some (.atom 3)) :: []

/-- A bulk-merge root whose first category holds an unparsable artifact and
whose second category is healthy. -/
def badCats : List (FName × MDir) :=
  ("cat1".data, ("A-001.json".data, (none : Option JVal)) :: []) ::
    ("cat2".data, ("B-001.json".data, some (JVal.atom 1)) :: []) :: []

/-! ## Arithmetic and formatting lemmas -/

theorem natDigitsAux_ofDigitsLE (fuel : Nat) :
    ∀ n : Nat, n ≤ fuel → ofDigitsLE (natDigitsAux fuel n) = n := by
  induction fuel with
  | zero =>
    intro n hn
    interval_cases n
    rfl
  | succ f ih =>
    intro n hn
    match n with
    | 0 => rfl
    | m + 1 =>
      have hdiv : (m + 1) / 10 ≤ f := by
        have h1 : (m + 1) / 10 < m + 1 := Nat.div_lt_self (Nat.succ_pos m) (by norm_num)
        omega
      simp only [natDigitsAux, ofDigitsLE, ih _ hdiv]
      exact Nat.mod_add_div (m + 1) 10

theorem ofDigitsLE_natDigits10 (n : Nat) : ofDigitsLE (natDigits10 n) = n :=
  natDigitsAux_ofDigitsLE n n le_rfl

theorem natDigits10_injective : Function.Injective natDigits10 := by
  intro a b h
  have := congrArg ofDigitsLE h
  rwa [ofDigitsLE_natDigits10, ofDigitsLE_natDigits10] at this

theorem natDigitsAux_lt_ten (fuel : Nat) :
    ∀ n : Nat, ∀ d ∈ natDigitsAux fuel n, d < 10 := by
  induction fuel with
  | zero => intro n d hd; simp [natDigitsAux] at hd
  | succ f ih =>
    intro n d hd
    match n with
    | 0 => simp [natDigitsAux] at hd
    | m + 1 =>
      simp only [natDigitsAux, List.mem_cons] at hd
      rcases hd with h | h
      · subst h; exact Nat.mod_lt _ (by norm_num)
      · exact ih _ _ h

theorem natDigits10_lt_ten (n : Nat) : ∀ d ∈ natDigits10 n, d < 10 :=
  natDigitsAux_lt_ten n n

theorem foldl_base10_reverse (ds : List Nat) :
    ∀ acc : Nat, ds.reverse.foldl (fun a d => a * 10 + d) acc
      = acc * 10 ^ ds.length + ofDigitsLE ds := by
  induction ds with
  | nil => intro acc; simp [ofDigitsLE]
  | cons d t ih =>
    intro acc
    simp only [List.reverse_cons, List.foldl_append, List.foldl_cons, List.foldl_nil,
      ih, ofDigitsLE, List.length_cons]
    ring

theorem valBE_replicate_append (k : Nat) (ds : List Nat) :
    valBE (List.replicate k 0 ++ ds) = valBE ds := by
  induction k with
  | zero => simp
  | succ m ih => simpa [List.replicate_succ, valBE] using ih

theorem valBE_pad3N (n : Nat) : valBE (pad3N n) = n := by
  unfold pad3N
  rw [valBE_replicate_append]
  unfold valBE
  rw [foldl_base10_reverse]
  simp [ofDigitsLE_natDigits10]

theorem pad3N_injective : Function.Injective pad3N := by
  intro a b h
  have := congrArg valBE h
  rwa [valBE_pad3N, valBE_pad3N] at this

theorem pad3N_lt_ten (n : Nat) : ∀ d ∈ pad3N n, d < 10 := by
  intro d hd
  unfold pad3N at hd
  rcases List.mem_append.1 hd with h | h
  · have := List.eq_of_mem_replicate h
    omega
  · exact natDigits10_lt_ten n d (List.mem_reverse.1 h)

theorem digitChar_inj_lt_ten :
    ∀ a < 10, ∀ b < 10, Nat.digitChar a = Nat.digitChar b → a = b := by decide

theorem map_digitChar_inj :
    ∀ l₁ l₂ : List Nat, (∀ d ∈ l₁, d < 10) → (∀ d ∈ l₂, d < 10) →
      l₁.map Nat.digitChar = l₂.map Nat.digitChar → l₁ = l₂ := by
  intro l₁
  induction l₁ with
  | nil => intro l₂ _ _ h; cases l₂ <;> simp_all
  | cons a t ih =>
    intro l₂ h₁ h₂ h
    cases l₂ with
    | nil => simp at h
    | cons b t₂ =>
      simp only [List.map_cons, List.cons.injEq] at h
      have ha : a < 10 := h₁ a (List.mem_cons_self _ _)
      have hb : b < 10 := h₂ b (List.mem_cons_self _ _)
      have hab := digitChar_inj_lt_ten a ha b hb h.1
      have ht := ih t₂ (fun d hd => h₁ d (List.mem_cons_of_mem _ hd))
        (fun d hd => h₂ d (List.mem_cons_of_mem _ hd)) h.2
      rw [hab, ht]

theorem pad3_injective : Function.Injective pad3 := by
  intro a b h
  exact pad3N_injective (map_digitChar_inj _ _ (pad3N_lt_ten a) (pad3N_lt_ten b) h)

theorem assign_inj_position (sec : List Char) {p q : Nat} (h : p ≠ q) :
    assign sec p ≠ assign sec q := by
  intro hEq
  apply h
  unfold assign at hEq
  have h2 := List.append_cancel_left hEq
  simp only [List.cons.injEq, true_and] at h2
  exact pad3_injective h2

theorem pad3_length_ge_three (n : Nat) : 3 ≤ (pad3 n).length := by
  unfold pad3 pad3N
  simp only [List.length_map, List.length_append, List.length_replicate]
  omega

theorem natDigitsAux_length_lt (fuel : Nat) :
    ∀ n k : Nat, n ≤ fuel → 10 ^ k ≤ n → k < (natDigitsAux fuel n).length := by
  induction fuel with
  | zero =>
    intro n k hn hk
    have : 0 < 10 ^ k := Nat.pos_pow_of_pos k (by norm_num)
    omega
  | succ f ih =>
    intro n k hn hk
    match n with
    | 0 =>
      have : 0 < 10 ^ k := Nat.pos_pow_of_pos k (by norm_num)
      omega
    | m + 1 =>
      simp only [natDigitsAux, List.length_cons]
      match k with
      | 0 => omega
      | j + 1 =>
        have hdiv : 10 ^ j ≤ (m + 1) / 10 := by
          rw [Nat.le_div_iff_mul_le (by norm_num)]
          calc 10 ^ j * 10 = 10 ^ (j + 1) := by ring
            _ ≤ m + 1 := hk
        have hfuel : (m + 1) / 10 ≤ f := by
          have := Nat.div_lt_self (Nat.succ_pos m) (show 1 < 10 by norm_num)
          omega
        have := ih ((m + 1) / 10) j hfuel hdiv
        omega

/-- For positions `p ≥ 1000` the format `{p:03d}` performs no padding: it is
exactly the plain decimal representation of `p`. -/
theorem pad3_widens (p : Nat) (hp : 1000 ≤ p) :
    pad3 p = ((natDigits10 p).reverse).map Nat.digitChar := by
  have hlen : 3 < (natDigits10 p).length := by
    have : (10 : Nat) ^ 3 ≤ p := by norm_num; omega
    exact natDigitsAux_length_lt p p 3 le_rfl this
  have h0 : 3 - ((natDigits10 p).reverse).length = 0 := by
    simp only [List.length_reverse]; omega
  simp only [pad3, pad3N, h0, List.replicate_zero, List.nil_append]

/-! ## Loop infrastructure lemmas -/

theorem smartStep_eq_genStep (sec : FName) (startFrom : Nat)
    (exec : Nat → ExecOutcome) (ledger : List Int) :
    smartStep sec startFrom exec ledger
      = genStep sec exec
          (fun it => !decide (it.1 < startFrom) && !decide ((it.1 : Int) ∈ ledger)) := by
  funext acc item
  unfold smartStep genStep
  by_cases h1 : item.1 < startFrom <;> by_cases h2 : (item.1 : Int) ∈ ledger <;>
    simp [h1, h2]

theorem simpleStep_eq_genStep (sec : FName) (startFrom : Nat)
    (exec : Nat → ExecOutcome) (stems : List FName) :
    simpleStep sec startFrom exec stems
      = genStep sec exec
          (fun it => !decide (assign sec it.1 ∈ stems) && !decide (it.1 < startFrom)) := by
  funext acc item
  unfold simpleStep genStep
  by_cases h1 : assign sec item.1 ∈ stems <;> by_cases h2 : item.1 < startFrom <;>
    simp [h1, h2]

theorem parallelStep_eq_genStep (sec : FName) (exec : Nat → ExecOutcome) :
    parallelStep sec exec = genStep sec exec (fun _ => true) := by
  funext acc item
  unfold parallelStep genStep
  simp

theorem genStep_foldl (sec : FName) (exec : Nat → ExecOutcome)
    (run : Nat × FName → Bool) :
    ∀ (items : List (Nat × FName)) (acc : RunAcc),
      (items.foldl (genStep sec exec run) acc).files
          = acc.files ++ (items.filter run).map (itemRecord sec exec)
      ∧ (items.foldl (genStep sec exec run) acc).skipped
          = acc.skipped + items.countP (fun it => !run it)
      ∧ (items.foldl (genStep sec exec run) acc).processed
          = acc.processed
            + ((items.filter run).map (itemRecord sec exec)).countP
                (fun r => r.success)
      ∧ (items.foldl (genStep sec exec run) acc).failed
          = acc.failed
            + ((items.filter run).map (itemRecord sec exec)).countP
                (fun r => !r.success) := by
  intro items
  induction items with
  | nil => intro acc; simp
  | cons hd tl ih =>
    intro acc
    by_cases h : run hd
    · have hstep : genStep sec exec run acc hd
          = { acc with
              processed := acc.processed
                + (if (itemRecord sec exec hd).success then 1 else 0)
              failed := acc.failed
                + (if (itemRecord sec exec hd).success then 0 else 1)
              files := acc.files ++ [itemRecord sec exec hd]
              fs := match (runItem sec exec hd.1 hd.2).2 with
                    | some v => fsWrite acc.fs (artifactName sec hd.1) v
                    | none => acc.fs } := by
        unfold genStep itemRecord
        simp [h]
      rcases ih (genStep sec exec run acc hd) with ⟨hf, hs, hp, hl⟩
      refine ⟨?_, ?_, ?_, ?_⟩
      · rw [List.foldl_cons, hf, hstep]
        simp [h, List.append_assoc]
      · rw [List.foldl_cons, hs, hstep]
        simp [h]
      · rw [List.foldl_cons, hp, hstep]
        by_cases hsucc : (itemRecord sec exec hd).success <;>
          · simp [h, hsucc, List.countP_cons]
            try omega
      · rw [List.foldl_cons, hl, hstep]
        by_cases hsucc : (itemRecord sec exec hd).success <;>
          · simp [h, hsucc, List.countP_cons]
            try omega
    · have hstep : genStep sec exec run acc hd
          = { acc with skipped := acc.skipped + 1 } := by
        unfold genStep
        simp [h]
      rcases ih (genStep sec exec run acc hd) with ⟨hf, hs, hp, hl⟩
      refine ⟨?_, ?_, ?_, ?_⟩
      · rw [List.foldl_cons, hf, hstep]; simp [h]
      · rw [List.foldl_cons, hs, hstep]; simp [h, List.countP_cons]; omega
      · rw [List.foldl_cons, hp, hstep]; simp [h]
      · rw [List.foldl_cons, hl, hstep]; simp [h]

theorem fsGet_fsWrite_self {α : Type} (fs : List (FName × α)) (name : FName)
    (v : α) : fsGet (fsWrite fs name v) name = some v := by
  induction fs with
  | nil => simp [fsWrite, fsGet]
  | cons e rest ih =>
    by_cases h : e.1 = name
    · simp [fsWrite, fsGet, h]
    · simp [fsWrite, fsGet, h, ih]

theorem fsGet_fsWrite_ne {α : Type} (fs : List (FName × α))
    (name other : FName) (v : α) (h : other ≠ name) :
    fsGet (fsWrite fs name v) other = fsGet fs other := by
  have hno : ¬ name = other := fun he => h he.symm
  induction fs with
  | nil => simp [fsWrite, fsGet, hno]
  | cons e rest ih =>
    rcases e with ⟨n1, v1⟩
    by_cases h1 : n1 = name
    · subst h1
      simp [fsWrite, fsGet, hno]
    · simp [fsWrite, fsGet, h1, ih]

theorem artifactName_inj_position (sec : FName) {p q : Nat}
    (h : artifactName sec p = artifactName sec q) : p = q := by
  by_contra hne
  exact assign_inj_position sec hne (List.append_cancel_right h)

theorem genStep_foldl_fs_preserved (sec : FName) (exec : Nat → ExecOutcome)
    (run : Nat × FName → Bool) (i : Nat) :
    ∀ (items : List (Nat × FName)) (acc : RunAcc),
      (∀ it ∈ items, it.1 ≠ i) →
      fsGet (items.foldl (genStep sec exec run) acc).fs (artifactName sec i)
        = fsGet acc.fs (artifactName sec i) := by
  intro items
  induction items with
  | nil => intro acc _; simp
  | cons hd tl ih =>
    intro acc hne
    rw [List.foldl_cons,
      ih _ (fun it hit => hne it (List.mem_cons_of_mem _ hit))]
    have hhd : hd.1 ≠ i := hne hd (List.mem_cons_self _ _)
    have hname : artifactName sec i ≠ artifactName sec hd.1 := by
      intro hEq
      exact hhd (artifactName_inj_position sec hEq).symm
    unfold genStep
    by_cases h : run hd
    · simp only [h, if_true]
      cases hw : (runItem sec exec hd.1 hd.2).2 with
      | none => rfl
      | some v => exact fsGet_fsWrite_ne _ _ _ _ hname
    · simp [h]

theorem genStep_foldl_fs_ok (sec : FName) (exec : Nat → ExecOutcome)
    (run : Nat × FName → Bool) :
    ∀ (items : List (Nat × FName)) (acc : RunAcc) (i : Nat) (nm : FName)
      (v : JVal),
      (i, nm) ∈ items → exec i = .ok v → run (i, nm) = true →
      (items.map Prod.fst).Nodup →
      fsGet (items.foldl (genStep sec exec run) acc).fs (artifactName sec i)
        = some v := by
  intro items
  induction items with
  | nil => intro acc i nm v hmem; simp at hmem
  | cons hd tl ih =>
    intro acc i nm v hmem hexec hrun hnodup
    rcases List.mem_cons.1 hmem with hEq | hmem'
    · subst hEq
      rw [List.foldl_cons]
      have htl : ∀ it ∈ tl, it.1 ≠ i := by
        intro it hit hEq
        have : i ∈ tl.map Prod.fst := hEq ▸ List.mem_map_of_mem Prod.fst hit
        simp only [List.map_cons, List.nodup_cons] at hnodup
        exact hnodup.1 this
      rw [genStep_foldl_fs_preserved sec exec run i tl _ htl]
      unfold genStep
      simp only [hrun, if_true]
      have : (runItem sec exec i nm).2 = some v := by
        unfold runItem
        rw [hexec]
      rw [this]
      exact fsGet_fsWrite_self _ _ _
    · rw [List.foldl_cons]
      have hnodup' : (tl.map Prod.fst).Nodup := by
        simp only [List.map_cons, List.nodup_cons] at hnodup
        exact hnodup.2
      exact ih _ i nm v hmem' hexec hrun hnodup'

/-! ## Parsing the identifiers back: ledger round trip -/

theorem digitChar_isDigit_toNat :
    ∀ d < 10, (Nat.digitChar d).isDigit = true ∧ (Nat.digitChar d).toNat - 48 = d := by
  decide

theorem pyDigitsAux_digits (ds : List Nat) (h : ∀ d ∈ ds, d < 10) (acc : Nat) :
    pyDigitsAux false acc (ds.map Nat.digitChar)
      = some (acc * 10 ^ ds.length + ofDigitsLE ds.reverse) := by
  induction ds generalizing acc with
  | nil => simp [pyDigitsAux, ofDigitsLE]
  | cons d tl ih =>
    have hd : d < 10 := h d (List.mem_cons_self _ _)
    have hdig := digitChar_isDigit_toNat d hd
    simp only [List.map_cons, pyDigitsAux, hdig.1, if_true, hdig.2]
    rw [ih (fun x hx => h x (List.mem_cons_of_mem _ hx))]
    congr 1
    have base : ∀ (l : List Nat) (x : Nat),
        ofDigitsLE (l ++ [x]) = ofDigitsLE l + x * 10 ^ l.length := by
      intro l
      induction l with
      | nil => intro x; simp [ofDigitsLE]
      | cons y t iht =>
        intro x
        show ofDigitsLE (y :: (t ++ [x])) = _
        simp only [ofDigitsLE, iht, List.length_cons]
        ring
    have hrev : ofDigitsLE (tl.reverse ++ [d])
        = ofDigitsLE tl.reverse + d * 10 ^ tl.length := by
      simpa using base tl.reverse d
    simp only [List.reverse_cons, hrev, List.length_cons]
    ring

theorem pyDigits_pad3 (p : Nat) : pyDigits (pad3 p) = some p := by
  rcases hp : pad3N p with _ | ⟨d, ds⟩
  · exfalso
    have := congrArg List.length hp
    simp only [pad3N, List.length_append, List.length_replicate,
      List.length_nil] at this
    omega
  · have hlt := pad3N_lt_ten p
    rw [hp] at hlt
    have hd : d < 10 := hlt d (List.mem_cons_self _ _)
    have hdig := digitChar_isDigit_toNat d hd
    have hmap : pad3 p = Nat.digitChar d :: ds.map Nat.digitChar := by
      rw [pad3, hp, List.map_cons]
    rw [hmap]
    show (if (Nat.digitChar d).isDigit = true
        then pyDigitsAux false ((Nat.digitChar d).toNat - 48) (ds.map Nat.digitChar)
        else none) = some p
    rw [if_pos hdig.1, hdig.2,
      pyDigitsAux_digits ds (fun x hx => hlt x (List.mem_cons_of_mem _ hx))]
    congr 1
    have hval : valBE (d :: ds) = p := hp ▸ valBE_pad3N p
    have hfold : valBE (d :: ds) = d * 10 ^ ds.length + ofDigitsLE ds.reverse := by
      unfold valBE
      calc (d :: ds).foldl (fun a x => a * 10 + x) 0
          = ds.foldl (fun a x => a * 10 + x) d := by simp
        _ = ds.reverse.reverse.foldl (fun a x => a * 10 + x) d := by
            rw [List.reverse_reverse]
        _ = d * 10 ^ ds.reverse.length + ofDigitsLE ds.reverse := by
            rw [foldl_base10_reverse]
        _ = d * 10 ^ ds.length + ofDigitsLE ds.reverse := by
            rw [List.length_reverse]
    omega

theorem pad3_isDigit (p : Nat) : ∀ c ∈ pad3 p, c.isDigit = true := by
  intro c hc
  rcases List.mem_map.1 hc with ⟨d, hd, rfl⟩
  have hlt := pad3N_lt_ten p d hd
  exact (by decide : ∀ d < 10, (Nat.digitChar d).isDigit = true) d hlt

theorem pad3_ne_nil (p : Nat) : pad3 p ≠ [] := by
  intro h
  have := pad3_length_ge_three p
  rw [h] at this
  simp at this

theorem isPySpace_of_isDigit (c : Char) (h : c.isDigit = true) :
    isPySpace c = false := by
  have h1 : ¬ c = ' ' := by
    intro he; subst he; exact absurd h (by decide)
  have h2 : ¬ c = '\t' := by
    intro he; subst he; exact absurd h (by decide)
  have h3 : ¬ c = '\n' := by
    intro he; subst he; exact absurd h (by decide)
  have h4 : ¬ c = '\r' := by
    intro he; subst he; exact absurd h (by decide)
  simp [isPySpace, h1, h2, h3, h4]

theorem pyInt_all_digits (l : List Char) (hne : l ≠ [])
    (hdig : ∀ c ∈ l, c.isDigit = true) :
    pyInt l = (pyDigits l).map Int.ofNat := by
  have hfront : l.dropWhile isPySpace = l := by
    rcases l with _ | ⟨c, rest⟩
    · simp at hne
    · have := isPySpace_of_isDigit c (hdig c (List.mem_cons_self _ _))
      simp [List.dropWhile_cons, this]
  have hback : l.reverse.dropWhile isPySpace = l.reverse := by
    rcases hrev : l.reverse with _ | ⟨c, rest⟩
    · simp
    · have hcmem : c ∈ l := by
        have : c ∈ l.reverse := hrev ▸ List.mem_cons_self _ _
        exact List.mem_reverse.1 this
      have := isPySpace_of_isDigit c (hdig c hcmem)
      simp [List.dropWhile_cons, this]
  have hstrip : ((l.dropWhile isPySpace).reverse.dropWhile isPySpace).reverse = l := by
    rw [hfront, hback, List.reverse_reverse]
  rcases l with _ | ⟨c, rest⟩
  · simp at hne
  · have hc := hdig c (List.mem_cons_self _ _)
    have hplus : ¬ c = '+' := by
      intro he; subst he; exact absurd hc (by decide)
    have hminus : ¬ c = '-' := by
      intro he; subst he; exact absurd hc (by decide)
    unfold pyInt
    rw [hstrip]
    show (match c :: rest with
      | '+' :: r => (pyDigits r).map Int.ofNat
      | '-' :: r => (pyDigits r).map (fun n => -(Int.ofNat n))
      | r => (pyDigits r).map Int.ofNat)
      = (pyDigits (c :: rest)).map Int.ofNat
    split
    · rename_i heq
      rw [List.cons.injEq] at heq
      exact absurd heq.1 hplus
    · rename_i heq
      rw [List.cons.injEq] at heq
      exact absurd heq.1 hminus
    · rfl

theorem pyInt_pad3 (p : Nat) : pyInt (pad3 p) = some (p : Int) := by
  rw [pyInt_all_digits (pad3 p) (pad3_ne_nil p) (pad3_isDigit p), pyDigits_pad3]
  rfl

theorem splitOnChar_no_sep (sep : Char) (l : List Char) (h : sep ∉ l) :
    splitOnChar sep l = [l] := by
  induction l with
  | nil => rfl
  | cons c rest ih =>
    have hc : ¬ c = sep := fun he => h (he ▸ List.mem_cons_self _ _)
    unfold splitOnChar
    rw [ih (fun hm => h (List.mem_cons_of_mem _ hm))]
    simp [hc]

theorem splitOnChar_append_sep (sep : Char) (pre post : List Char)
    (hpre : sep ∉ pre) (hpost : sep ∉ post) :
    splitOnChar sep (pre ++ sep :: post) = [pre, post] := by
  induction pre with
  | nil =>
    show splitOnChar sep (sep :: post) = [[], post]
    unfold splitOnChar
    rw [splitOnChar_no_sep sep post hpost]
    simp
  | cons c rest ih =>
    have hc : ¬ c = sep := fun he => hpre (he ▸ List.mem_cons_self _ _)
    show splitOnChar sep (c :: (rest ++ sep :: post)) = [c :: rest, post]
    unfold splitOnChar
    rw [ih (fun hm => hpre (List.mem_cons_of_mem _ hm))]
    simp [hc]

theorem dash_not_mem_pad3 (p : Nat) : '-' ∉ pad3 p := by
  intro hm
  exact absurd (pad3_isDigit p '-' hm) (by decide)

theorem stemOf_artifactName (sec : FName) (p : Nat) :
    stemOf (artifactName sec p) = assign sec p := by
  unfold stemOf artifactName
  have hlen : (assign sec p ++ ('.' :: 'j' :: 's' :: 'o' :: 'n' :: [])).length - 5
      = (assign sec p).length := by
    simp
  rw [hlen]
  exact List.take_left _ _

theorem seqFromStem_assign (sec : FName) (p : Nat) (hsec : '-' ∉ sec) :
    seqFromStem (assign sec p) = some (p : Int) := by
  unfold seqFromStem assign
  rw [splitOnChar_append_sep '-' sec (pad3 p) hsec (dash_not_mem_pad3 p)]
  exact pyInt_pad3 p

theorem assign_head_ne_dot (sec : FName) (p : Nat)
    (hdot : sec.head? ≠ some '.') :
    (assign sec p ++ ('.' :: 'j' :: 's' :: 'o' :: 'n' :: [])).head? ≠ some '.' := by
  rcases sec with _ | ⟨c, rest⟩
  · intro h
    simp [assign] at h
  · have hc : c ≠ '.' := by
      intro he
      exact hdot (by rw [he]; rfl)
    intro h
    simp [assign] at h
    exact hc h

theorem jsonGlobMatch_artifactName (sec : FName) (p : Nat)
    (hdot : sec.head? ≠ some '.') :
    jsonGlobMatch (artifactName sec p) = true := by
  unfold jsonGlobMatch artifactName
  have hsuf : (('.' :: 'j' :: 's' :: 'o' :: 'n' :: []) : List Char).isSuffixOf
      (assign sec p ++ ('.' :: 'j' :: 's' :: 'o' :: 'n' :: [])) = true := by
    rw [List.isSuffixOf_iff_suffix]
    exact List.suffix_append _ _
  rw [hsuf]
  have hhead := assign_head_ne_dot sec p hdot
  simp only [Bool.true_and, Bool.not_eq_true']
  exact decide_eq_false hhead

/-- Membership in the sequence-based ledger from a recovered artifact. -/
theorem mem_getAlreadyProcessedFiles (files : List FName) (name : FName)
    (k : Int) (hmem : name ∈ files) (hglob : jsonGlobMatch name = true)
    (hseq : seqFromStem (stemOf name) = some k) :
    k ∈ getAlreadyProcessedFiles files := by
  unfold getAlreadyProcessedFiles
  refine List.mem_filterMap.2 ⟨name, ?_, hseq⟩
  exact List.mem_filter.2 ⟨hmem, hglob⟩

theorem fsGet_some_mem_names {α : Type} (fs : List (FName × α)) (name : FName)
    (v : α) (h : fsGet fs name = some v) : name ∈ fs.map Prod.fst := by
  induction fs with
  | nil => exact absurd h (by intro hc; cases hc)
  | cons e rest ih =>
    rcases e with ⟨n1, v1⟩
    rw [List.map_cons]
    by_cases he : n1 = name
    · exact he ▸ List.mem_cons_self _ _
    · apply List.mem_cons_of_mem
      apply ih
      rw [show fsGet ((n1, v1) :: rest) name
          = if n1 = name then some v1 else fsGet rest name from rfl,
        if_neg he] at h
      exact h

theorem fsWrite_names_mono {α : Type} (fs : List (FName × α)) (name nm : FName)
    (v : α) (h : nm ∈ fs.map Prod.fst) :
    nm ∈ (fsWrite fs name v).map Prod.fst := by
  induction fs with
  | nil => cases h
  | cons e rest ih =>
    rcases e with ⟨n1, v1⟩
    rw [List.map_cons] at h
    by_cases he : n1 = name
    · rw [show fsWrite ((n1, v1) :: rest) name v
          = if n1 = name then (n1, v) :: rest else (n1, v1) :: fsWrite rest name v
          from rfl, if_pos he, List.map_cons]
      exact h
    · rw [show fsWrite ((n1, v1) :: rest) name v
          = if n1 = name then (n1, v) :: rest else (n1, v1) :: fsWrite rest name v
          from rfl, if_neg he, List.map_cons]
      rcases List.mem_cons.1 h with h1 | h1
      · exact h1 ▸ List.mem_cons_self _ _
      · exact List.mem_cons_of_mem _ (ih h1)

theorem genStep_foldl_names_mono (sec : FName) (exec : Nat → ExecOutcome)
    (run : Nat × FName → Bool) :
    ∀ (items : List (Nat × FName)) (acc : RunAcc) (nm : FName),
      nm ∈ acc.fs.map Prod.fst →
      nm ∈ (items.foldl (genStep sec exec run) acc).fs.map Prod.fst := by
  intro items
  induction items with
  | nil => intro acc nm h; exact h
  | cons hd tl ih =>
    intro acc nm h
    rw [List.foldl_cons]
    apply ih
    unfold genStep
    by_cases hr : run hd
    · simp only [hr, if_true]
      cases hw : (runItem sec exec hd.1 hd.2).2 with
      | none => exact h
      | some v => exact fsWrite_names_mono _ _ _ _ h
    · simp only [hr, if_false]
      exact h

theorem assign_injective (sec : FName) : Function.Injective (assign sec) := by
  intro p q h
  by_contra hne
  exact assign_inj_position sec hne h

theorem itemRecord_sequenceId (sec : FName) (exec : Nat → ExecOutcome)
    (it : Nat × FName) : (itemRecord sec exec it).sequenceId = it.1 := by
  unfold itemRecord runItem
  cases exec it.1 <;> rfl

theorem itemRecord_paperId (sec : FName) (exec : Nat → ExecOutcome)
    (it : Nat × FName) : (itemRecord sec exec it).paperId = assign sec it.1 := by
  unfold itemRecord runItem
  cases exec it.1 <;> rfl

theorem itemRecord_success_ok (sec : FName) (exec : Nat → ExecOutcome)
    (it : Nat × FName) (h : (itemRecord sec exec it).success = true) :
    ∃ v, exec it.1 = .ok v := by
  unfold itemRecord runItem at h
  cases he : exec it.1 with
  | ok v => exact ⟨v, rfl⟩
  | failed => rw [he] at h; exact absurd h (by simp)
  | raised m => rw [he] at h; exact absurd h (by simp)

theorem itemRecord_raised (sec : FName) (exec : Nat → ExecOutcome)
    (p : Nat) (nm : FName) (msg : List Char) (h : exec p = .raised msg) :
    itemRecord sec exec (p, nm) = ⟨nm, p, assign sec p, false, some msg⟩ := by
  unfold itemRecord runItem
  rw [h]

theorem bnot_decide_lt (s p : Nat) : (!decide (p < s)) = decide (s ≤ p) := by
  by_cases h : p < s
  · simp [h, Nat.not_le.2 h]
  · simp [h, Nat.not_lt.1 h]

theorem mem_collectJsonFiles (dir : MDir) (e : FName × Option JVal)
    (h : e ∈ collectJsonFiles dir) :
    jsonGlobMatch e.1 = true ∧ mergedSuffix.isSuffixOf e.1 = false := by
  unfold collectJsonFiles at h
  have h2 : e ∈ dir.filter
      (fun e => jsonGlobMatch e.1 && !(mergedSuffix.isSuffixOf e.1)) :=
    (List.perm_insertionSort _ _).mem_iff.1 h
  have h3 := List.of_mem_filter h2
  simp only [Bool.and_eq_true, Bool.not_eq_true'] at h3
  exact h3

theorem collectData_error_of_none :
    ∀ l : MDir, (∃ e ∈ l, e.2 = none) →
      ∃ g, collectData l = .error ⟨g⟩ ∧ (g, (none : Option JVal)) ∈ l := by
  intro l
  induction l with
  | nil => rintro ⟨e, he, _⟩; cases he
  | cons hd tl ih =>
    rintro ⟨e, he, hnone⟩
    rcases hd with ⟨nm, cv⟩
    cases cv with
    | none => exact ⟨nm, rfl, List.mem_cons_self _ _⟩
    | some v =>
      have he' : e ∈ tl := by
        rcases List.mem_cons.1 he with h1 | h1
        · rw [h1] at hnone; cases hnone
        · exact h1
      rcases ih ⟨e, he', hnone⟩ with ⟨g, hg, hgm⟩
      refine ⟨g, ?_, List.mem_cons_of_mem _ hgm⟩
      show (collectData tl).map (fun l => v :: l) = .error ⟨g⟩
      rw [hg]
      rfl

/-! ## The claims -/

/-- **C4** (code_bug): the claim says every resume-mode run with
`processed + failed = 0` reports a success rate of `0` and completes
normally.  The code disagrees for smart resume: `process_pdfs_with_resume`
computes `processed/(total_files - skipped)` unguarded (src/pdf_processor.py
line 510), and `total_files - skipped = processed + failed` there, so an
all-skipped run raises `ZeroDivisionError`.  The sibling simple-resume run
guards the same division (lines 620-621) and completes, returning
`processed = failed = 0` — evidence of intent. -/
theorem resume_summary_zero_denominator_crash :
    processPdfsWithResume fsBothPre twoDocs demoSec 1 execAtom
      = .error .zeroDivisionError
    ∧ (processPdfsInDirectoryWithResume fsBothPre twoDocs demoSec 1 execAtom).1
      = { success := true, totalFiles := 2, processed := 0, failed := 0,
          skipped := some 2, files := [], parallelWorkers := none } :=
  ⟨rfl, rfl⟩

/-- **C5** (confirmed): `assign` (the f-string
`f"{section_code}-{sequence_id:03d}"`) is a pure total function returning
exactly the category, a hyphen, and the position zero-padded to at least 3
digits; it widens without truncation at `p ≥ 1000` and is injective over the
position for a fixed category (determinism is inherent: it is a function).
It never fails, so in particular it fails only on non-positive positions,
vacuously. -/
theorem assign_format_deterministic_injective (C : FName) (p q : Nat) :
    assign C p = C ++ '-' :: pad3 p
    ∧ 3 ≤ (pad3 p).length
    ∧ (1000 ≤ p → pad3 p = ((natDigits10 p).reverse).map Nat.digitChar)
    ∧ (p ≠ q → assign C p ≠ assign C q) :=
  ⟨rfl, pad3_length_ge_three p, pad3_widens p, fun h => assign_inj_position C h⟩

/-- Witness for C5 at category `A`, positions 1000 and 7. -/
theorem assign_format_deterministic_injective_witness :
    pad3 1000 = ((natDigits10 1000).reverse).map Nat.digitChar
    ∧ assign demoSec 1000 ≠ assign demoSec 7 := by
  have h := assign_format_deterministic_injective demoSec 1000 7
  exact ⟨h.2.2.1 (by norm_num), h.2.2.2 (by norm_num)⟩

/-- **C7** (confirmed): the Completion Ledger scan is a total function; a
file whose stem does not parse (such as `A-abc.json`, whose suffix after the
hyphen is non-numeric) or does not match the glob contributes no position to
the completed set, and the scan of a directory containing only `A-abc.json`
is empty. -/
theorem ledger_scan_tolerates_malformed (files : List FName) (name : FName)
    (h : seqFromStem (stemOf name) = none ∨ jsonGlobMatch name = false) :
    getAlreadyProcessedFiles (files ++ [name]) = getAlreadyProcessedFiles files
    ∧ getAlreadyProcessedFiles ["A-abc.json".data] = [] := by
  constructor
  · unfold getAlreadyProcessedFiles
    rw [List.filter_append, List.filterMap_append]
    have hnil : List.filterMap (fun n => seqFromStem (stemOf n))
        (List.filter jsonGlobMatch [name]) = [] := by
      rcases h with h | h
      · by_cases hg : jsonGlobMatch name = true
        · simp [List.filter_cons, hg, h]
        · simp [List.filter_cons, hg]
      · simp [List.filter_cons, h]
    rw [hnil, List.append_nil]
  · rfl

/-- Witness for C7: appending `A-abc.json` to a directory already holding
`A-001.json` leaves the recovered position set unchanged. -/
theorem ledger_scan_tolerates_malformed_witness :
    (seqFromStem (stemOf "A-abc.json".data) = none
      ∨ jsonGlobMatch "A-abc.json".data = false)
    ∧ getAlreadyProcessedFiles (("A-001.json".data :: []) ++ ["A-abc.json".data])
      = getAlreadyProcessedFiles ("A-001.json".data :: []) := by
  have h := ledger_scan_tolerates_malformed ("A-001.json".data :: [])
    "A-abc.json".data (Or.inl (by decide))
  exact ⟨Or.inl (by decide), h.1⟩

/-- **C8** (confirmed): `collect_json_files` never includes any name ending
in `_merged.json`, so the merged archive (always named
`{category}_merged.json`) is never among its own inputs; concretely, merging
`{A-001.json, A-002.json}`, adding `A-003.json` and merging again yields a
merged collection of exactly the 3 artifacts in case-insensitive name-sorted
order. -/
theorem merge_never_includes_own_output :
    (∀ (dirName : FName) (dir : MDir),
        (dirName ++ mergedSuffix) ∉ (collectJsonFiles dir).map Prod.fst)
    ∧ mergeCategory demoSec demoDirA = .ok (some (demoMergedName, demoDirA1))
    ∧ mergeCategory demoSec (demoDirA1 ++ [("A-003.json".data, some (.atom 3))])
      = .ok (some (demoMergedName, demoDirA2))
    ∧ fsGet demoDirA2 demoMergedName
      = some (some (.arr (JVal.atom 1 :: JVal.atom 2 :: JVal.atom 3 :: []))) := by
  refine ⟨?_, rfl, rfl, rfl⟩
  intro dirName dir hmem
  rcases List.mem_map.1 hmem with ⟨e, he, heq⟩
  have h := (mem_collectJsonFiles dir e he).2
  have htrue : mergedSuffix.isSuffixOf (dirName ++ mergedSuffix) = true := by
    rw [List.isSuffixOf_iff_suffix]
    exact List.suffix_append _ _
  rw [heq, htrue] at h
  cases h

/-- **C9, counterexample**: the claim says a bulk merge continues with the
remaining categories after one category fails to parse; in fact
`merge_outputs` returns 1 at the first `ValueError`
(src/merge_json_outputs.py lines 67-69): with `cat1` unparsable and `cat2`
healthy, only `cat1` is attempted. -/
theorem bulk_merge_stops_at_first_failure :
    mergeOutputs badCats = (1, [("cat1".data, .failedParse "A-001.json".data)])
    ∧ badCats.map Prod.fst = "cat1".data :: "cat2".data :: []
    ∧ "cat2".data ∉ (mergeOutputs badCats).2.map Prod.fst := by
  refine ⟨rfl, rfl, ?_⟩
  decide

/-- **C9, amended** (corrected): when an artifact fails structural JSON
parsing, that category's merge aborts with an error naming an (actually
unparsable) collected file — nothing is silently dropped — and the bulk run
stops at that category with exit code 1, not attempting the remaining
categories. -/
theorem merge_aborts_and_bulk_run_stops (b : Bool) (n : FName) (d : MDir)
    (rest : List (FName × MDir)) (f : FName)
    (h : mergeCategory n d = .error ⟨f⟩) :
    mergeOutputsLoop b ((n, d) :: rest) = (1, [(n, .failedParse f)])
    ∧ ∀ (dirName : FName) (dir : MDir),
        (∃ e ∈ collectJsonFiles dir, e.2 = none) →
        ∃ g, mergeCategory dirName dir = .error ⟨g⟩
          ∧ (g, (none : Option JVal)) ∈ collectJsonFiles dir := by
  constructor
  · show (match mergeCategory n d with
      | .error e => (1, [(n, .failedParse e.offending)])
      | .ok none =>
        let r := mergeOutputsLoop b rest
        (r.1, (n, .noFiles) :: r.2)
      | .ok (some _) =>
        let r := mergeOutputsLoop true rest
        (r.1, (n, .merged) :: r.2)) = (1, [(n, .failedParse f)])
    rw [h]
  · intro dirName dir hex
    rcases collectData_error_of_none (collectJsonFiles dir) hex with ⟨g, hg, hgm⟩
    refine ⟨g, ?_, hgm⟩
    unfold mergeCategory
    have hne : (collectJsonFiles dir).isEmpty = false := by
      rcases hex with ⟨e, he, _⟩
      cases hcl : collectJsonFiles dir with
      | nil => rw [hcl] at he; cases he
      | cons a l => rfl
    simp only [hne, Bool.false_eq_true, if_false, hg]

/-- Witness for C9's amended theorem at the `badCats` root. -/
theorem merge_aborts_and_bulk_run_stops_witness :
    mergeOutputsLoop false badCats
      = (1, [("cat1".data, .failedParse "A-001.json".data)]) := by
  have h := merge_aborts_and_bulk_run_stops false "cat1".data
    (("A-001.json".data, (none : Option JVal)) :: [])
    (("cat2".data, ("B-001.json".data, some (JVal.atom 1)) :: []) :: [])
    "A-001.json".data rfl
  exact h.1

/-- The executed-item predicate of the smart-resume loop, on a bare
position. -/
def smartRunPred (s : Nat) (ledger : List Int) (p : Nat) : Bool :=
  !decide (p < s) && !decide ((p : Int) ∈ ledger)

theorem smartLoopAcc_files_skipped (fs : Fs) (docs : List FName) (sec : FName)
    (s : Nat) (exec : Nat → ExecOutcome) :
    (smartLoopAcc fs docs sec s exec).files.map (fun r => r.sequenceId)
      = (List.range' 1 docs.length).filter (smartRunPred s (smartLedger fs))
    ∧ (smartLoopAcc fs docs sec s exec).skipped
      = (List.range' 1 docs.length).countP
          (fun p => !smartRunPred s (smartLedger fs) p)
    ∧ (smartLoopAcc fs docs sec s exec).processed
      = (((docs.enumFrom 1).filter
            (fun it => smartRunPred s (smartLedger fs) it.1)).map
          (itemRecord sec exec)).countP (fun r => r.success)
    ∧ (smartLoopAcc fs docs sec s exec).failed
      = (((docs.enumFrom 1).filter
            (fun it => smartRunPred s (smartLedger fs) it.1)).map
          (itemRecord sec exec)).countP (fun r => !r.success) := by
  unfold smartLoopAcc
  rw [smartStep_eq_genStep]
  have hrun : (fun it : Nat × FName =>
      !decide (it.1 < s) && !decide ((it.1 : Int) ∈ smartLedger fs))
      = (fun it : Nat × FName => smartRunPred s (smartLedger fs) it.1) := rfl
  rw [hrun]
  rcases genStep_foldl sec exec
    (fun it : Nat × FName => smartRunPred s (smartLedger fs) it.1)
    (docs.enumFrom 1) ⟨0, 0, 0, [], fs⟩ with ⟨hf, hs, hp, hl⟩
  refine ⟨?_, ?_, ?_, ?_⟩
  · rw [hf]
    show (((docs.enumFrom 1).filter _).map (itemRecord sec exec)).map _ = _
    rw [List.map_map]
    have hseq : ((fun r : FileRecord => r.sequenceId) ∘ itemRecord sec exec)
        = fun it : Nat × FName => it.1 := by
      funext it
      exact itemRecord_sequenceId sec exec it
    rw [hseq]
    have hcomp : (fun it : Nat × FName => smartRunPred s (smartLedger fs) it.1)
        = smartRunPred s (smartLedger fs) ∘ Prod.fst := rfl
    rw [hcomp, ← List.filter_map, List.enumFrom_map_fst]
  · rw [hs, ← List.enumFrom_map_fst 1 docs, List.countP_map]
    exact Nat.zero_add _
  · rw [hp]
    exact Nat.zero_add _
  · rw [hl]
    exact Nat.zero_add _

theorem processPdfsWithResume_ok_results (fs : Fs) (docs : List FName)
    (sec : FName) (s : Nat) (exec : Nat → ExecOutcome) (r : RunResults)
    (fsOut : Fs)
    (h : processPdfsWithResume fs docs sec s exec = .ok (r, fsOut))
    (hne : docs ≠ []) :
    r.files = (smartLoopAcc fs docs sec s exec).files
    ∧ r.skipped = some (smartLoopAcc fs docs sec s exec).skipped := by
  have hempty : docs.isEmpty = false := by
    rcases docs with _ | ⟨d, ds⟩
    · exact absurd rfl hne
    · rfl
  unfold processPdfsWithResume at h
  rw [hempty] at h
  simp only [Bool.false_eq_true, if_false] at h
  by_cases hden : docs.length - (smartLoopAcc fs docs sec s exec).skipped = 0
  · rw [if_pos hden] at h
    cases h
  · rw [if_neg hden] at h
    rw [Except.ok.injEq, Prod.mk.injEq] at h
    obtain ⟨hr, _⟩ := h
    rw [← hr]
    exact ⟨rfl, rfl⟩

/-- **C1** (confirmed): over the sorted snapshot of `N` documents, for any
start `s` and any output-directory state, the smart-resume loop executes
exactly the positions `p` with `s ≤ p ≤ N` and `p` not in the recovered
ledger, in ascending order (its per-item records are appended in loop
order), and counts exactly the other positions — those below `s` or in the
ledger — as skipped, executing none of them; whenever
`process_pdfs_with_resume` returns, its reported records and skip count are
exactly this loop state.  In particular, with artifacts present for
positions 1, 2 and 4 and `s = 1`, the executed positions are exactly those
of `1..N` outside `{1,2,4}` and the skipped ones exactly those inside. -/
theorem smartResume_schedules_exactly (fs : Fs) (docs : List FName)
    (sec : FName) (s : Nat) (exec : Nat → ExecOutcome) :
    ((smartLoopAcc fs docs sec s exec).files.map (fun r => r.sequenceId)
      = (List.range' 1 docs.length).filter
          (fun p => decide (s ≤ p) && !decide ((p : Int) ∈ smartLedger fs)))
    ∧ ((smartLoopAcc fs docs sec s exec).skipped
      = ((List.range' 1 docs.length).filter
          (fun p => decide (p < s) || decide ((p : Int) ∈ smartLedger fs))).length)
    ∧ (∀ docs₁ : List FName,
        ((smartLoopAcc fs124 docs₁ demoSec 1 exec).files.map
            (fun r => r.sequenceId)
          = (List.range' 1 docs₁.length).filter
              (fun p => !decide (p = 1) && !decide (p = 2) && !decide (p = 4)))
        ∧ ((smartLoopAcc fs124 docs₁ demoSec 1 exec).skipped
          = ((List.range' 1 docs₁.length).filter
              (fun p => decide (p = 1) || decide (p = 2) || decide (p = 4))).length))
    ∧ (∀ (r : RunResults) (fsOut : Fs), docs ≠ [] →
        processPdfsWithResume fs docs sec s exec = .ok (r, fsOut) →
        r.files = (smartLoopAcc fs docs sec s exec).files
        ∧ r.skipped = some (smartLoopAcc fs docs sec s exec).skipped) := by
  have key := smartLoopAcc_files_skipped fs docs sec s exec
  refine ⟨?_, ?_, ?_, ?_⟩
  · rw [key.1]
    apply List.filter_congr
    intro p _
    unfold smartRunPred
    rw [bnot_decide_lt]
  · rw [key.2.1, List.countP_eq_length_filter]
    apply congrArg List.length
    apply List.filter_congr
    intro p _
    unfold smartRunPred
    simp [Bool.not_or]
  · intro docs₁
    have key₁ := smartLoopAcc_files_skipped fs124 docs₁ demoSec 1 exec
    have hled : smartLedger fs124 = (1 : Int) :: 2 :: 4 :: [] := rfl
    have hpt : ∀ p ∈ List.range' 1 docs₁.length,
        smartRunPred 1 (smartLedger fs124) p
          = (!decide (p = 1) && !decide (p = 2) && !decide (p = 4)) := by
      intro p hp
      have h1 : 1 ≤ p := (List.mem_range'_1.1 hp).1
      have hlt : decide (p < 1) = false := by
        simp
        omega
      have hmem : ((p : Int) ∈ ((1 : Int) :: 2 :: 4 :: []))
          ↔ (p = 1 ∨ p = 2 ∨ p = 4) := by
        simp only [List.mem_cons, List.not_mem_nil, or_false]
        constructor
        · rintro (h | h | h)
          · exact Or.inl (by exact_mod_cast h)
          · exact Or.inr (Or.inl (by exact_mod_cast h))
          · exact Or.inr (Or.inr (by exact_mod_cast h))
        · rintro (h | h | h)
          · exact Or.inl (by exact_mod_cast h)
          · exact Or.inr (Or.inl (by exact_mod_cast h))
          · exact Or.inr (Or.inr (by exact_mod_cast h))
      unfold smartRunPred
      rw [hled, hlt, decide_eq_decide.2 hmem]
      · simp only [Bool.decide_or, Bool.not_or, Bool.not_false, Bool.true_and,
          Bool.and_assoc]
      · infer_instance
    constructor
    · rw [key₁.1]
      exact List.filter_congr hpt
    · rw [key₁.2.1, List.countP_eq_length_filter]
      apply congrArg List.length
      apply List.filter_congr
      intro p hp
      rw [hpt p hp]
      simp [Bool.not_or, Bool.and_assoc, Bool.or_assoc]
  · intro r fsOut hne hok
    exact processPdfsWithResume_ok_results fs docs sec s exec r fsOut hok hne

/-- Witness for C1's reporting conjunct at the two-document demo run. -/
theorem smartResume_schedules_exactly_witness :
    demoR1.files = (smartLoopAcc [] twoDocs demoSec 1 execAtom).files
    ∧ demoR1.skipped = some (smartLoopAcc [] twoDocs demoSec 1 execAtom).skipped := by
  exact (smartResume_schedules_exactly [] twoDocs demoSec 1 execAtom).2.2.2
    demoR1 demoFs1 (by decide) rfl

theorem simpleLoopAcc_files (fs : Fs) (docs : List FName) (sec : FName)
    (s : Nat) (exec : Nat → ExecOutcome) :
    (simpleLoopAcc fs docs sec s exec).files
      = ((docs.enumFrom s).filter
          (fun it => !decide (assign sec it.1 ∈ processedStems (fs.map Prod.fst)))).map
          (itemRecord sec exec)
    ∧ (simpleLoopAcc fs docs sec s exec).skipped
      = (docs.enumFrom s).countP
          (fun it => decide (assign sec it.1 ∈ processedStems (fs.map Prod.fst))) := by
  unfold simpleLoopAcc
  rw [simpleStep_eq_genStep]
  rcases genStep_foldl sec exec
    (fun it : Nat × FName =>
      !decide (assign sec it.1 ∈ processedStems (fs.map Prod.fst))
        && !decide (it.1 < s))
    (docs.enumFrom s) ⟨0, 0, 0, [], fs⟩ with ⟨hf, hs, _, _⟩
  have hpt : ∀ it ∈ docs.enumFrom s,
      (!decide (assign sec it.1 ∈ processedStems (fs.map Prod.fst))
          && !decide (it.1 < s))
        = !decide (assign sec it.1 ∈ processedStems (fs.map Prod.fst)) := by
    rintro ⟨p, nm⟩ hmem
    have hle : s ≤ p := (List.mem_enumFrom hmem).1
    have : decide (p < s) = false := by
      simp only [decide_eq_false_iff_not]
      omega
    simp [this]
  constructor
  · rw [hf]
    show ((docs.enumFrom s).filter _).map (itemRecord sec exec) = _
    exact congrArg _ (List.filter_congr hpt)
  · rw [hs]
    have : ∀ it ∈ docs.enumFrom s,
        (!(!decide (assign sec it.1 ∈ processedStems (fs.map Prod.fst))
            && !decide (it.1 < s)))
          = decide (assign sec it.1 ∈ processedStems (fs.map Prod.fst)) := by
      intro it hmem
      rw [hpt it hmem, Bool.not_not]
    rw [List.countP_congr (fun x hx => by rw [this x hx])]
    exact Nat.zero_add _

/-- **C6** (confirmed): simple resume enumerates the sorted snapshot from
`start_from`, so the document at original index `i` is assigned sequence
position `start_from + i`; the loop executes exactly the documents whose
identifier is absent from the identifier-based ledger (the artifact stems),
in order; with `start = 5` the assigned positions of a 3-document category
are exactly 5, 6, 7. -/
theorem simpleResume_offset_assignment (fs : Fs) (docs : List FName)
    (sec : FName) (s : Nat) (exec : Nat → ExecOutcome) :
    (∀ i (h : i < docs.length),
        (docs.enumFrom s).get ⟨i, by rw [List.enumFrom_length]; exact h⟩
          = (s + i, docs.get ⟨i, h⟩))
    ∧ ((simpleLoopAcc fs docs sec s exec).files
        = ((docs.enumFrom s).filter
            (fun it =>
              !decide (assign sec it.1 ∈ processedStems (fs.map Prod.fst)))).map
            (itemRecord sec exec))
    ∧ ((simpleLoopAcc [] docs sec 5 exec).files.map (fun r => r.sequenceId)
        = List.range' 5 docs.length)
    ∧ (∀ d₀ d₁ d₂ : FName,
        (simpleLoopAcc [] (d₀ :: d₁ :: d₂ :: []) sec 5 exec).files.map
            (fun r => r.sequenceId) = 5 :: 6 :: 7 :: []) := by
  have hmain := simpleLoopAcc_files [] docs sec 5 exec
  have hfiles5 : (simpleLoopAcc [] docs sec 5 exec).files.map
      (fun r => r.sequenceId) = List.range' 5 docs.length := by
    rw [hmain.1]
    have hall : ∀ it ∈ docs.enumFrom 5,
        (!decide (assign sec it.1 ∈ processedStems
            ((List.nil : Fs).map Prod.fst))) = true := by
      intro it _
      simp [processedStems]
    rw [List.filter_congr hall, List.filter_true, List.map_map]
    have hseq : ((fun r : FileRecord => r.sequenceId) ∘ itemRecord sec exec)
        = fun it : Nat × FName => it.1 := by
      funext it
      exact itemRecord_sequenceId sec exec it
    rw [hseq, List.enumFrom_map_fst]
  refine ⟨?_, (simpleLoopAcc_files fs docs sec s exec).1, hfiles5, ?_⟩
  · intro i h
    rw [List.get_eq_getElem, List.get_eq_getElem, List.getElem_enumFrom]
  · intro d₀ d₁ d₂
    have h3 := simpleLoopAcc_files [] (d₀ :: d₁ :: d₂ :: []) sec 5 exec
    rw [h3.1]
    have hall : ∀ it ∈ (d₀ :: d₁ :: d₂ :: []).enumFrom 5,
        (!decide (assign sec it.1 ∈ processedStems
            ((List.nil : Fs).map Prod.fst))) = true := by
      intro it _
      simp [processedStems]
    rw [List.filter_congr hall, List.filter_true, List.map_map]
    have hseq : ((fun r : FileRecord => r.sequenceId) ∘ itemRecord sec exec)
        = fun it : Nat × FName => it.1 := by
      funext it
      exact itemRecord_sequenceId sec exec it
    rw [hseq]
    rfl

/-- Witness for C6 at three documents and `start = 5`. -/
theorem simpleResume_offset_assignment_witness :
    (threeDocs.enumFrom 5).get ⟨1, by decide⟩ = (6, "y.pdf".data)
    ∧ (simpleLoopAcc [] threeDocs demoSec 5 execAtom).files.map
        (fun r => r.sequenceId) = 5 :: 6 :: 7 :: [] := by
  have h := simpleResume_offset_assignment [] threeDocs demoSec 5 execAtom
  exact ⟨h.1 1 (by decide), h.2.2.2 "x.pdf".data "y.pdf".data "z.pdf".data⟩

/-- The files produced by a nonempty parallel run: one record per collected
completion, in completion order. -/
theorem parallel_run_canonical (fs : Fs) (docs : List FName) (sec : FName)
    (workers : Nat) (exec : Nat → ExecOutcome) (order : List (Nat × FName))
    (hne : docs ≠ []) :
    (processPdfsParallel fs docs sec workers exec order).1
      = { success := true, totalFiles := docs.length,
          processed := (order.map (itemRecord sec exec)).countP
            (fun r => r.success),
          failed := (order.map (itemRecord sec exec)).countP
            (fun r => !r.success),
          skipped := none,
          files := order.map (itemRecord sec exec),
          parallelWorkers := some workers } := by
  rcases docs with _ | ⟨d, ds⟩
  · exact absurd rfl hne
  · rcases genStep_foldl sec exec (fun _ => true) order ⟨0, 0, 0, [], fs⟩
      with ⟨hf, _, hp, hl⟩
    rw [List.filter_true] at hf hp hl
    unfold processPdfsParallel
    rw [parallelStep_eq_genStep]
    simp only [List.isEmpty_cons, Bool.false_eq_true, if_false, hf, hp, hl,
      List.nil_append, Nat.zero_add]

/-- **C2** (confirmed): with `workers ≥ 1`, the parallel run over `N`
documents produces exactly `N` per-item records — one per submitted
document, whatever the completion order — with pairwise-distinct paper
identifiers; an item whose execution raised is still captured as an error
record, never dropped. -/
theorem parallel_one_record_per_item (fs : Fs) (docs : List FName)
    (sec : FName) (workers : Nat) (exec : Nat → ExecOutcome)
    (order : List (Nat × FName)) (_hw : 1 ≤ workers)
    (hperm : order.Perm (parallelSubmissions docs)) :
    ((processPdfsParallel fs docs sec workers exec order).1.files.length
      = docs.length)
    ∧ (((processPdfsParallel fs docs sec workers exec order).1.files.map
        (fun r => r.paperId)).Nodup)
    ∧ (((processPdfsParallel fs docs sec workers exec order).1.files.map
        (fun r => r.sequenceId)).Perm (List.range' 1 docs.length))
    ∧ (∀ p nm msg, (p, nm) ∈ order → exec p = .raised msg →
        (⟨nm, p, assign sec p, false, some msg⟩ : FileRecord)
          ∈ (processPdfsParallel fs docs sec workers exec order).1.files) := by
  have hfst : (order.map Prod.fst).Perm (List.range' 1 docs.length) := by
    have h := hperm.map Prod.fst
    rwa [show (parallelSubmissions docs).map Prod.fst
        = List.range' 1 docs.length from List.enumFrom_map_fst 1 docs] at h
  rcases docs with _ | ⟨d, ds⟩
  · have horder : order = [] := by
      apply List.perm_nil.1
      simpa [parallelSubmissions] using hperm
    subst horder
    refine ⟨rfl, List.nodup_nil, List.Perm.refl _, ?_⟩
    intro p nm msg hmem
    cases hmem
  · have hne : (d :: ds) ≠ ([] : List FName) := by
      intro h
      cases h
    have hcanon := parallel_run_canonical fs (d :: ds) sec workers exec order hne
    have hfiles : (processPdfsParallel fs (d :: ds) sec workers exec order).1.files
        = order.map (itemRecord sec exec) := by
      rw [hcanon]
    have hseq : ((fun r : FileRecord => r.sequenceId) ∘ itemRecord sec exec)
        = fun it : Nat × FName => it.1 := by
      funext it
      exact itemRecord_sequenceId sec exec it
    have hpid : ((fun r : FileRecord => r.paperId) ∘ itemRecord sec exec)
        = fun it : Nat × FName => assign sec it.1 := by
      funext it
      exact itemRecord_paperId sec exec it
    refine ⟨?_, ?_, ?_, ?_⟩
    · rw [hfiles, List.length_map, hperm.length_eq]
      simp [parallelSubmissions]
    · rw [hfiles, List.map_map, hpid]
      have hnodupfst : (order.map Prod.fst).Nodup :=
        hfst.nodup_iff.2 (List.nodup_range' 1 (d :: ds).length)
      have : (fun it : Nat × FName => assign sec it.1)
          = assign sec ∘ Prod.fst := rfl
      rw [this, ← List.map_map]
      exact hnodupfst.map (assign_injective sec)
    · rw [hfiles, List.map_map, hseq]
      have : (fun it : Nat × FName => it.1)
          = (Prod.fst : Nat × FName → Nat) := rfl
      rw [this]
      exact hfst
    · intro p nm msg hmem hraised
      rw [hfiles]
      have := List.mem_map_of_mem (itemRecord sec exec) hmem
      rwa [itemRecord_raised sec exec p nm msg hraised] at this

/-- Witness for C2: two documents, five workers, completion in reverse
order. -/
theorem parallel_one_record_per_item_witness :
    ((processPdfsParallel [] twoDocs demoSec 5 execAtom
        ((2, "b.pdf".data) :: (1, "a.pdf".data) :: [])).1.files.length = 2)
    ∧ (((processPdfsParallel [] twoDocs demoSec 5 execAtom
        ((2, "b.pdf".data) :: (1, "a.pdf".data) :: [])).1.files.map
        (fun r => r.paperId)).Nodup) := by
  have h := parallel_one_record_per_item [] twoDocs demoSec 5 execAtom
    ((2, "b.pdf".data) :: (1, "a.pdf".data) :: []) (by norm_num) (by decide)
  exact ⟨h.1, h.2.1⟩

/-- **C10** (confirmed): `process_pdfs_parallel` submits every document of
the sorted snapshot at positions `1..N` unconditionally — it never consults
the Completion Ledger, so its returned results are identical for every
output-directory state and existing artifacts are overwritten by their
items' fresh payloads — and its summary has no `skipped` key. -/
theorem parallel_submits_all_and_overwrites (fs fs₁ : Fs) (docs : List FName)
    (sec : FName) (workers : Nat) (exec : Nat → ExecOutcome)
    (order : List (Nat × FName))
    (hperm : order.Perm (parallelSubmissions docs)) :
    ((parallelSubmissions docs).map Prod.fst = List.range' 1 docs.length)
    ∧ ((processPdfsParallel fs docs sec workers exec order).1
      = (processPdfsParallel fs₁ docs sec workers exec order).1)
    ∧ ("skipped" ∉ parallelResultKeys)
    ∧ ((processPdfsParallel fs docs sec workers exec order).1.skipped = none)
    ∧ (∀ p nm v, (p, nm) ∈ order → exec p = .ok v →
        fsGet (processPdfsParallel fs docs sec workers exec order).2
          (artifactName sec p) = some v) := by
  have hfst : (order.map Prod.fst).Perm (List.range' 1 docs.length) := by
    have h := hperm.map Prod.fst
    rwa [show (parallelSubmissions docs).map Prod.fst
        = List.range' 1 docs.length from List.enumFrom_map_fst 1 docs] at h
  refine ⟨List.enumFrom_map_fst 1 docs, ?_, by decide, ?_, ?_⟩
  · rcases docs with _ | ⟨d, ds⟩
    · rfl
    · have hne : (d :: ds) ≠ ([] : List FName) := by
        intro h
        cases h
      rw [parallel_run_canonical fs (d :: ds) sec workers exec order hne,
        parallel_run_canonical fs₁ (d :: ds) sec workers exec order hne]
  · rcases docs with _ | ⟨d, ds⟩
    · rfl
    · have hne : (d :: ds) ≠ ([] : List FName) := by
        intro h
        cases h
      rw [parallel_run_canonical fs (d :: ds) sec workers exec order hne]
  · intro p nm v hmem hok
    rcases docs with _ | ⟨d, ds⟩
    · have horder : order = [] := by
        apply List.perm_nil.1
        simpa [parallelSubmissions] using hperm
      rw [horder] at hmem
      cases hmem
    · have hnodup : (order.map Prod.fst).Nodup :=
        hfst.nodup_iff.2 (List.nodup_range' 1 (d :: ds).length)
      show fsGet ((order.foldl (parallelStep sec exec) ⟨0, 0, 0, [], fs⟩).fs)
          (artifactName sec p) = some v
      rw [parallelStep_eq_genStep]
      exact genStep_foldl_fs_ok sec exec (fun _ => true) order
        ⟨0, 0, 0, [], fs⟩ p nm v hmem hok rfl hnodup

/-- Witness for C10: with an artifact already present for position 1, the
parallel run overwrites it with the fresh payload. -/
theorem parallel_submits_all_and_overwrites_witness :
    fsGet (processPdfsParallel fsBothPre twoDocs demoSec 3 execAtom
        (parallelSubmissions twoDocs)).2 (artifactName demoSec 1)
      = some (.atom 1) := by
  have h := parallel_submits_all_and_overwrites fsBothPre [] twoDocs demoSec 3
    execAtom (parallelSubmissions twoDocs) (List.Perm.refl _)
  exact h.2.2.2.2 1 "a.pdf".data (.atom 1) (by decide) rfl

theorem processPdfsWithResume_ok_inv (fs : Fs) (docs : List FName) (sec : FName)
    (s : Nat) (exec : Nat → ExecOutcome) (r : RunResults) (fs' : Fs)
    (hne : docs ≠ [])
    (h : processPdfsWithResume fs docs sec s exec = .ok (r, fs')) :
    r.failed = (smartLoopAcc fs docs sec s exec).failed
    ∧ fs' = (smartLoopAcc fs docs sec s exec).fs := by
  have hempty : docs.isEmpty = false := by
    rcases docs with _ | ⟨d, ds⟩
    · exact absurd rfl hne
    · rfl
  unfold processPdfsWithResume at h
  rw [hempty] at h
  simp only [Bool.false_eq_true, if_false] at h
  by_cases hden : docs.length - (smartLoopAcc fs docs sec s exec).skipped = 0
  · rw [if_pos hden] at h
    cases h
  · rw [if_neg hden] at h
    rw [Except.ok.injEq, Prod.mk.injEq] at h
    obtain ⟨hr, hfs⟩ := h
    constructor
    · rw [← hr]
    · rw [← hfs]

theorem processPdfsWithResume_error_of_all_skipped (fs : Fs) (docs : List FName)
    (sec : FName) (s : Nat) (exec : Nat → ExecOutcome) (hne : docs ≠ [])
    (hskip : (smartLoopAcc fs docs sec s exec).skipped = docs.length) :
    processPdfsWithResume fs docs sec s exec = .error .zeroDivisionError := by
  have hempty : docs.isEmpty = false := by
    rcases docs with _ | ⟨d, ds⟩
    · exact absurd rfl hne
    · rfl
  unfold processPdfsWithResume
  rw [hempty]
  simp only [Bool.false_eq_true, if_false]
  rw [hskip, Nat.sub_self]
  rfl

theorem getAlreadyProcessedFiles_mono (names₁ names₂ : List FName)
    (hsub : ∀ n ∈ names₁, n ∈ names₂) (k : Int)
    (hk : k ∈ getAlreadyProcessedFiles names₁) :
    k ∈ getAlreadyProcessedFiles names₂ := by
  unfold getAlreadyProcessedFiles at hk ⊢
  rcases List.mem_filterMap.1 hk with ⟨n, hn, hparse⟩
  have hmemfil := List.mem_filter.1 hn
  exact List.mem_filterMap.2
    ⟨n, List.mem_filter.2 ⟨hsub n hmemfil.1, hmemfil.2⟩, hparse⟩

theorem smartLoopAcc_fs (fs : Fs) (docs : List FName) (sec : FName)
    (s : Nat) (exec : Nat → ExecOutcome) :
    (smartLoopAcc fs docs sec s exec).fs
      = ((docs.enumFrom 1).foldl
          (genStep sec exec
            (fun it => smartRunPred s (smartLedger fs) it.1))
          ⟨0, 0, 0, [], fs⟩).fs := by
  unfold smartLoopAcc
  rw [smartStep_eq_genStep]
  rfl

theorem smartResume_rerun_all_in_ledger (fs : Fs) (docs : List FName)
    (sec : FName) (s : Nat) (exec₁ : Nat → ExecOutcome)
    (hsec : '-' ∉ sec) (hdot : sec.head? ≠ some '.')
    (hfail : (smartLoopAcc fs docs sec s exec₁).failed = 0) :
    ∀ p ∈ List.range' 1 docs.length,
      smartRunPred s (smartLedger (smartLoopAcc fs docs sec s exec₁).fs) p
        = false := by
  intro p hp
  by_cases hlt : p < s
  · unfold smartRunPred
    simp [hlt]
  · have hmem₂ : (p : Int)
        ∈ smartLedger (smartLoopAcc fs docs sec s exec₁).fs := by
      by_cases hmem₁ : (p : Int) ∈ smartLedger fs
      · apply getAlreadyProcessedFiles_mono (fs.map Prod.fst)
          ((smartLoopAcc fs docs sec s exec₁).fs.map Prod.fst) ?_ _ hmem₁
        intro n hn
        rw [smartLoopAcc_fs]
        exact genStep_foldl_names_mono sec exec₁ _ (docs.enumFrom 1)
          ⟨0, 0, 0, [], fs⟩ n hn
      · have hitem : ∃ it ∈ docs.enumFrom 1, it.1 = p := by
          have hmapped : p ∈ (docs.enumFrom 1).map Prod.fst := by
            rw [List.enumFrom_map_fst]
            exact hp
          rcases List.mem_map.1 hmapped with ⟨it, hit, hfst⟩
          exact ⟨it, hit, hfst⟩
        rcases hitem with ⟨it, hit, hfst⟩
        have hpred : smartRunPred s (smartLedger fs) it.1 = true := by
          unfold smartRunPred
          rw [hfst]
          simp [hlt, hmem₁]
        have hfail' := (smartLoopAcc_files_skipped fs docs sec s exec₁).2.2.2
        rw [hfail] at hfail'
        have hallsucc := List.countP_eq_zero.1 hfail'.symm
        have hrecmem : itemRecord sec exec₁ it
            ∈ ((docs.enumFrom 1).filter
                (fun it => smartRunPred s (smartLedger fs) it.1)).map
                (itemRecord sec exec₁) :=
          List.mem_map_of_mem _ (List.mem_filter.2 ⟨hit, hpred⟩)
        have hsucc : (itemRecord sec exec₁ it).success = true := by
          have hns := hallsucc _ hrecmem
          simpa using hns
        rcases itemRecord_success_ok sec exec₁ it hsucc with ⟨v, hok⟩
        have hget : fsGet (smartLoopAcc fs docs sec s exec₁).fs
            (artifactName sec it.1) = some v := by
          rw [smartLoopAcc_fs]
          apply genStep_foldl_fs_ok sec exec₁
            (fun it => smartRunPred s (smartLedger fs) it.1) (docs.enumFrom 1)
            ⟨0, 0, 0, [], fs⟩ it.1 it.2 v ?_ hok hpred ?_
          · rw [Prod.mk.eta]
            exact hit
          · rw [List.enumFrom_map_fst]
            exact List.nodup_range' 1 docs.length
        have hname : artifactName sec it.1
            ∈ (smartLoopAcc fs docs sec s exec₁).fs.map Prod.fst :=
          fsGet_some_mem_names _ _ _ hget
        have hled := mem_getAlreadyProcessedFiles
          ((smartLoopAcc fs docs sec s exec₁).fs.map Prod.fst)
          (artifactName sec it.1) ((it.1 : Nat) : Int) hname
          (jsonGlobMatch_artifactName sec it.1 hdot)
          (by rw [stemOf_artifactName]; exact seqFromStem_assign sec it.1 hsec)
        rw [hfst] at hled
        exact hled
    unfold smartRunPred
    simp [hmem₂]

/-- **C3** (code_bug): after a smart-resume run over a nonempty snapshot
completes with no failures, a second smart-resume run with the same inputs
finds every position in its fresh ledger scan and skips all of them
(`skipped = total`, `processed = 0` in the loop state) — but instead of
reporting that, `process_pdfs_with_resume` raises `ZeroDivisionError`
computing `processed/(total_files - skipped)` in its final summary
(src/pdf_processor.py line 510), so the second run never returns.  The
hypotheses on the section code (`'-' ∉ sec`, not starting with a dot) hold
for every section code the CLI accepts (`SECTION_DESCRIPTIONS` in
src/main.py). -/
theorem smartResume_rerun_raises (fs fs₁ : Fs) (docs : List FName)
    (sec : FName) (s : Nat) (exec₁ exec₂ : Nat → ExecOutcome) (r₁ : RunResults)
    (hne : docs ≠ []) (hsec : '-' ∉ sec) (hdot : sec.head? ≠ some '.')
    (hrun1 : processPdfsWithResume fs docs sec s exec₁ = .ok (r₁, fs₁))
    (hfail : r₁.failed = 0) :
    (smartLoopAcc fs₁ docs sec s exec₂).skipped = docs.length
    ∧ (smartLoopAcc fs₁ docs sec s exec₂).processed = 0
    ∧ processPdfsWithResume fs₁ docs sec s exec₂
        = .error .zeroDivisionError := by
  rcases processPdfsWithResume_ok_inv fs docs sec s exec₁ r₁ fs₁ hne hrun1
    with ⟨hrfail, hfs⟩
  have hfail₁ : (smartLoopAcc fs docs sec s exec₁).failed = 0 := by
    rw [← hrfail]
    exact hfail
  have hallfalse := smartResume_rerun_all_in_ledger fs docs sec s exec₁
    hsec hdot hfail₁
  subst hfs
  have hkey := smartLoopAcc_files_skipped
    ((smartLoopAcc fs docs sec s exec₁).fs) docs sec s exec₂
  have hskip : (smartLoopAcc (smartLoopAcc fs docs sec s exec₁).fs
      docs sec s exec₂).skipped = docs.length := by
    rw [hkey.2.1]
    have hall : ∀ p ∈ List.range' 1 docs.length,
        (!smartRunPred s
            (smartLedger (smartLoopAcc fs docs sec s exec₁).fs) p) = true := by
      intro p hp
      rw [hallfalse p hp]
      rfl
    rw [List.countP_eq_length.2 hall, List.length_range']
  have hproc : (smartLoopAcc (smartLoopAcc fs docs sec s exec₁).fs
      docs sec s exec₂).processed = 0 := by
    rw [hkey.2.2.1]
    have hnil : (docs.enumFrom 1).filter
        (fun it => smartRunPred s
          (smartLedger (smartLoopAcc fs docs sec s exec₁).fs) it.1) = [] := by
      apply List.filter_eq_nil_iff.2
      intro it hit
      have hp : it.1 ∈ List.range' 1 docs.length := by
        rw [← List.enumFrom_map_fst 1 docs]
        exact List.mem_map_of_mem Prod.fst hit
      rw [hallfalse it.1 hp]
      simp
    rw [hnil]
    rfl
  exact ⟨hskip, hproc,
    processPdfsWithResume_error_of_all_skipped _ docs sec s exec₂ hne hskip⟩

/-- Witness for C3: the two-document demo — a fully successful first run,
then the second run raising. -/
theorem smartResume_rerun_raises_witness :
    twoDocs ≠ [] ∧ ('-' ∉ demoSec) ∧ (demoSec.head? ≠ some '.')
    ∧ processPdfsWithResume [] twoDocs demoSec 1 execAtom = .ok (demoR1, demoFs1)
    ∧ demoR1.failed = 0
    ∧ processPdfsWithResume demoFs1 twoDocs demoSec 1 execAtom
        = .error .zeroDivisionError := by
  refine ⟨by decide, by decide, by decide, rfl, rfl, ?_⟩
  exact (smartResume_rerun_raises [] demoFs1 twoDocs demoSec 1 execAtom
    execAtom demoR1 (by decide) (by decide) (by decide) rfl rfl).2.2

end PdfTool
